import Mathlib

set_option maxRecDepth 40000

/-!
Verification of the `blossom` Bloom-filter library.

The embedding follows the two Rust source files:

* `src/bit_array.rs` — struct `BitArray { array: Vec<u8>, size_in_bits: usize }`
  with `new`, `set_bit`, `get_bit`, `set_bit_from_u64`, `get_bit_from_u64` and
  `bit_index_from_u64`.
* `src/lib.rs` — struct `BloomFilter { bit_array: BitArray, num_hash_functions: usize }`
  with `new`, `with_false_positive_bound`, `insert` and `maybe_contains`.

Conventions of the embedding:

* A 64-bit platform is assumed: `usize::MAX = 2 ^ 64 - 1`.
* Machine integers are naturals; bytes are naturals kept below 256 by the
  operations themselves (only `|||` with a mask below 256 is ever stored).
* A Rust panic (out-of-bounds `Vec` indexing, the explicit `panic!` in
  `with_false_positive_bound`) is modelled by `Option`: `none` is a panic.
* The `DefaultHasher` digest of round `i` and value `v` is an injected
  capability, exactly as the specification describes it: every operation is
  parameterised by `h : ℕ → α → ℕ`, where `h i v` stands for the `u64`
  produced by hashing `i` and then `v` into a fresh hasher.
* The `f64` arithmetic of `bit_index_from_u64` is embedded exactly, see
  `roundSig` below.  The `f32` logarithms of `with_false_positive_bound` are
  platform-libm values that Rust does not pin down, so that constructor is a
  function of the two intermediate `f32` results (as exact rationals).
-/

/-- Number of binary digits of `n`, computed with explicit fuel so that the
kernel can evaluate it by plain structural recursion; `bitLenAux fuel n` is
the bit length of `n` whenever `n < 2 ^ fuel`. -/
def bitLenAux : ℕ → ℕ → ℕ
  | 0, _ => 0
  | fuel + 1, n => if n = 0 then 0 else bitLenAux fuel (n / 2) + 1

/-- Number of binary digits of `n`, valid for every `n < 2 ^ 140`.  Every
quantity fed to it in this development is below `2 ^ 129`. -/
def bitLen (n : ℕ) : ℕ := bitLenAux 140 n

/-- Round a natural number to 53 significant binary digits, to nearest with
ties to even.  This is exactly the significand rounding of IEEE-754 binary64,
the format behind the `as f64` casts and the `f64` multiplication in
`BitArray::bit_index_from_u64` (src/bit_array.rs).  Rounding to binary64
commutes with scaling by powers of two while the value stays in the normal
range, so `roundSig` also models the rounding of values scaled by `2 ^ 64`. -/
def roundSig (n : ℕ) : ℕ :=
  if n < 2 ^ 53 then n
  else if n % 2 ^ (bitLen n - 53) < 2 ^ (bitLen n - 53 - 1) then
    n / 2 ^ (bitLen n - 53) * 2 ^ (bitLen n - 53)
  else if 2 ^ (bitLen n - 53 - 1) < n % 2 ^ (bitLen n - 53) then
    (n / 2 ^ (bitLen n - 53) + 1) * 2 ^ (bitLen n - 53)
  else if n / 2 ^ (bitLen n - 53) % 2 = 0 then
    n / 2 ^ (bitLen n - 53) * 2 ^ (bitLen n - 53)
  else (n / 2 ^ (bitLen n - 53) + 1) * 2 ^ (bitLen n - 53)

/-- Embedding of `BitArray::bit_index_from_u64` (src/bit_array.rs):

`((i as f64 / u64::MAX as f64) * (self.size_in_bits - 1) as f64) as usize`.

`i as f64` is `roundSig d`; `u64::MAX as f64` rounds to `2 ^ 64` exactly;
the division by `2 ^ 64` is exact in binary64 because it only shifts the
exponent; `(size_in_bits - 1) as f64` is `roundSig (size_in_bits - 1)`; the
product is rounded once; the `as usize` cast truncates toward zero and
saturates at `usize::MAX`.  Keeping everything scaled by `2 ^ 64` turns the
computation into the following natural-number expression. -/
def bit_index_from_u64 (size_in_bits d : ℕ) : ℕ :=
  min (roundSig (roundSig d * roundSig (size_in_bits - 1)) / 2 ^ 64) (2 ^ 64 - 1)

/-- Modelled from the spec's words, for comparison with `bit_index_from_u64`:
the exact formula `index = floor((digest / u64::MAX) * (capacity_bits - 1))`
evaluated in exact rational arithmetic, that is
`digest * (capacity_bits - 1) / (2 ^ 64 - 1)` with integer floor division. -/
def spec_floor_index (size_in_bits d : ℕ) : ℕ :=
  d * (size_in_bits - 1) / (2 ^ 64 - 1)

/-- Embedding of `struct BitArray` (src/bit_array.rs): the byte vector and the
size in bits it was created with. -/
structure BitArray where
  array : List ℕ
  size_in_bits : ℕ
  deriving DecidableEq

/-- The byte count computed by `BitArray::new` (src/bit_array.rs): the bit
count rounded up to the nearest multiple of 8, divided by 8 — written exactly
as in the source. -/
def size_in_bytes (size_in_bits : ℕ) : ℕ :=
  if size_in_bits % 8 = 0 then size_in_bits / 8
  else (size_in_bits + 8 - size_in_bits % 8) / 8

/-- Embedding of `BitArray::new`: `size_in_bytes` zero bytes. -/
def BitArray.new (size_in_bits : ℕ) : BitArray :=
  ⟨List.replicate (size_in_bytes size_in_bits) 0, size_in_bits⟩

/-- Embedding of `BitArray::set_bit`:
`self.array[i / 8] = self.array[i / 8] | (TWO_TO_THE_SEVENTH >> i % 8)`.
`Vec` indexing panics when `i / 8` is out of bounds, hence the `Option`. -/
def BitArray.set_bit (ba : BitArray) (i : ℕ) : Option BitArray :=
  if i / 8 < ba.array.length then
    some ⟨ba.array.set (i / 8) ((ba.array.getD (i / 8) 0) ||| (128 >>> (i % 8))),
          ba.size_in_bits⟩
  else none

/-- Embedding of `BitArray::get_bit`:
`self.array[i / 8] & (TWO_TO_THE_SEVENTH >> i % 8) != 0u8`. -/
def BitArray.get_bit (ba : BitArray) (i : ℕ) : Option Bool :=
  if i / 8 < ba.array.length then
    some (((ba.array.getD (i / 8) 0) &&& (128 >>> (i % 8))) != 0)
  else none

/-- Embedding of `BitArray::set_bit_from_u64`. -/
def BitArray.set_bit_from_u64 (ba : BitArray) (d : ℕ) : Option BitArray :=
  ba.set_bit (bit_index_from_u64 ba.size_in_bits d)

/-- Embedding of `BitArray::get_bit_from_u64`. -/
def BitArray.get_bit_from_u64 (ba : BitArray) (d : ℕ) : Option Bool :=
  ba.get_bit (bit_index_from_u64 ba.size_in_bits d)

/-- Embedding of `struct BloomFilter` (src/lib.rs). -/
structure BloomFilter where
  bit_array : BitArray
  num_hash_functions : ℕ
  deriving DecidableEq

/-- Embedding of `BloomFilter::new`. -/
def BloomFilter.new (size num_hash_functions : ℕ) : BloomFilter :=
  ⟨BitArray.new size, num_hash_functions⟩

/-- Embedding of `BloomFilter::with_false_positive_bound` (src/lib.rs).

The Rust function computes, in `f32` arithmetic,
`size = (max_insertions as f32 * (-p.ln() / 2f32.ln().powf(2.0))).ceil()` and
`num_hash_functions = (-p.log2()).ceil() as usize`.  Rust does not specify the
exact values of the libm functions `ln`, `log2` and `powf`, so the embedding
takes the two computed `f32` intermediates as parameters (every `f32` value is
an exact rational): `sizeF` is the value of the product
`max_insertions as f32 * multiplier`, and `hashF` is the value of
`-false_positive_probability.log2()`.

The remaining steps are exact and are embedded faithfully: `.ceil()` of an
`f32` is exact; the `panic!` fires when `size > usize::MAX as f32`, and
`usize::MAX as f32` rounds to `2 ^ 64`; an `as usize` cast of an `f32`
truncates and saturates into `[0, 2 ^ 64 - 1]`. -/
def BloomFilter.with_false_positive_bound (sizeF hashF : ℚ) : Option BloomFilter :=
  if 2 ^ 64 < ⌈sizeF⌉ then none
  else
    some (BloomFilter.new (min ⌈sizeF⌉.toNat (2 ^ 64 - 1))
                          (min ⌈hashF⌉.toNat (2 ^ 64 - 1)))

/-- The loop body of `BloomFilter::insert` (src/lib.rs), iterated over the
list of remaining hash-function indices: each round hashes the index and the
value and sets the resulting bit; a panic anywhere aborts the whole call. -/
def BloomFilter.insertAux {α : Type _} (h : ℕ → α → ℕ) (v : α) :
    List ℕ → BitArray → Option BitArray
  | [], ba => some ba
  | i :: rest, ba =>
    match ba.set_bit_from_u64 (h i v) with
    | none => none
    | some ba' => BloomFilter.insertAux h v rest ba'

/-- Embedding of `BloomFilter::insert`: run the rounds `0, …, k-1` in order. -/
def BloomFilter.insert {α : Type _} (h : ℕ → α → ℕ) (bf : BloomFilter) (v : α) :
    Option BloomFilter :=
  (BloomFilter.insertAux h v (List.range bf.num_hash_functions) bf.bit_array).map
    (fun ba => ⟨ba, bf.num_hash_functions⟩)

/-- The loop of `BloomFilter::maybe_contains` (src/lib.rs): check the bit of
each round in order, short-circuiting to `false` at the first unset bit. -/
def BloomFilter.containsAux {α : Type _} (h : ℕ → α → ℕ) (v : α) (ba : BitArray) :
    List ℕ → Option Bool
  | [] => some true
  | i :: rest =>
    match ba.get_bit_from_u64 (h i v) with
    | none => none
    | some true => BloomFilter.containsAux h v ba rest
    | some false => some false

/-- Embedding of `BloomFilter::maybe_contains`. -/
def BloomFilter.maybe_contains {α : Type _} (h : ℕ → α → ℕ) (bf : BloomFilter) (v : α) :
    Option Bool :=
  BloomFilter.containsAux h v bf.bit_array (List.range bf.num_hash_functions)

/-- A sequence of insertions, as performed by repeated `insert` calls on the
same filter. -/
def BloomFilter.runInserts {α : Type _} (h : ℕ → α → ℕ) :
    BloomFilter → List α → Option BloomFilter
  | bf, [] => some bf
  | bf, v :: rest =>
    match BloomFilter.insert h bf v with
    | none => none
    | some bf' => BloomFilter.runInserts h bf' rest

/-- One byte dominates another when it has every bit of the other set. -/
def byteLe (x y : ℕ) : Prop := ∀ t, x.testBit t = true → y.testBit t = true

/-- One byte list dominates another pointwise, with the same length. -/
def arrLe (a b : List ℕ) : Prop :=
  a.length = b.length ∧ ∀ j, byteLe (a.getD j 0) (b.getD j 0)

/-- Every bit that reads `1` in `a` also reads `1` in `b`: the "bits only
transition 0 to 1" relation between two bit-array states. -/
def bits_monotone (a b : BitArray) : Prop :=
  ∀ j, a.get_bit j = some true → b.get_bit j = some true

/-- The byte count of `BitArray::new` is the usual ceiling division. -/
theorem size_in_bytes_eq (s : ℕ) : size_in_bytes s = (s + 7) / 8 := by
  unfold size_in_bytes
  split <;> omega

theorem bitLenAux_le {fuel k n : ℕ} (hn : n < 2 ^ k) (hk : k ≤ fuel) :
    bitLenAux fuel n ≤ k := by
  induction fuel generalizing k n with
  | zero =>
    interval_cases k
    simp [bitLenAux]
  | succ fuel ih =>
    rw [bitLenAux]
    split
    · exact Nat.zero_le _
    · rename_i hn0
      rcases k with _ | k
      · omega
      · have h2 : n / 2 < 2 ^ k := by
          have : (2 : ℕ) ^ (k + 1) = 2 ^ k * 2 := by ring
          rw [Nat.div_lt_iff_lt_mul (by norm_num)]
          omega
        have := ih h2 (by omega)
        omega

/-- Upper bound on the fuelled bit length. -/
theorem bitLen_le {k n : ℕ} (hn : n < 2 ^ k) (hk : k ≤ 140) : bitLen n ≤ k :=
  bitLenAux_le hn hk

/-- Values with at most 53 significant bits are exactly representable. -/
theorem roundSig_eq_self {n : ℕ} (h : n < 2 ^ 53) : roundSig n = n := by
  unfold roundSig
  rw [if_pos h]

/-- Rounding cannot cross the next power of two from below. -/
theorem roundSig_le_pow {n k : ℕ} (hn : n < 2 ^ k) (hk : k ≤ 140) :
    roundSig n ≤ 2 ^ k := by
  unfold roundSig
  split
  · exact Nat.le_of_lt hn
  · have hbl : bitLen n ≤ k := bitLen_le hn hk
    have hsh : bitLen n - 53 ≤ k := by omega
    have hq : n / 2 ^ (bitLen n - 53) < 2 ^ (k - (bitLen n - 53)) := by
      rw [Nat.div_lt_iff_lt_mul (Nat.pos_pow_of_pos _ (by norm_num))]
      calc n < 2 ^ k := hn
        _ = 2 ^ (k - (bitLen n - 53)) * 2 ^ (bitLen n - 53) := by
          rw [← pow_add]
          congr 1
          omega
    have hq1 : (n / 2 ^ (bitLen n - 53) + 1) * 2 ^ (bitLen n - 53) ≤ 2 ^ k := by
      calc (n / 2 ^ (bitLen n - 53) + 1) * 2 ^ (bitLen n - 53)
          ≤ 2 ^ (k - (bitLen n - 53)) * 2 ^ (bitLen n - 53) :=
            Nat.mul_le_mul_right _ (by omega)
        _ = 2 ^ k := by
          rw [← pow_add]
          congr 1
          omega
    have hq0 : n / 2 ^ (bitLen n - 53) * 2 ^ (bitLen n - 53) ≤ 2 ^ k := by
      calc n / 2 ^ (bitLen n - 53) * 2 ^ (bitLen n - 53)
          ≤ (n / 2 ^ (bitLen n - 53) + 1) * 2 ^ (bitLen n - 53) :=
            Nat.mul_le_mul_right _ (by omega)
        _ ≤ 2 ^ k := hq1
    split
    · exact hq0
    · split
      · exact hq1
      · split
        · exact hq0
        · exact hq1

/-- Round-to-nearest moves a value below `2 ^ 117` by less than `2 ^ 64`:
the unit in the last place of such a value is at most `2 ^ 64`. -/
theorem roundSig_lt_add {n : ℕ} (hn : n < 2 ^ 117) : roundSig n < n + 2 ^ 64 := by
  have hpos64 : (0 : ℕ) < 2 ^ 64 := pow_pos (by norm_num) _
  unfold roundSig
  split
  · omega
  · have hbl : bitLen n ≤ 117 := bitLen_le hn (by norm_num)
    have hsh : bitLen n - 53 ≤ 64 := by omega
    have hpow : (2 : ℕ) ^ (bitLen n - 53) ≤ 2 ^ 64 :=
      Nat.pow_le_pow_right (by norm_num) hsh
    have hdm : n / 2 ^ (bitLen n - 53) * 2 ^ (bitLen n - 53) + n % 2 ^ (bitLen n - 53) = n := by
      rw [Nat.mul_comm]
      exact Nat.div_add_mod n (2 ^ (bitLen n - 53))
    have hdist : (n / 2 ^ (bitLen n - 53) + 1) * 2 ^ (bitLen n - 53)
        = n / 2 ^ (bitLen n - 53) * 2 ^ (bitLen n - 53) + 2 ^ (bitLen n - 53) := by ring
    have hhalf : (0 : ℕ) < 2 ^ (bitLen n - 53 - 1) := pow_pos (by norm_num) _
    split
    · omega
    · split
      · omega
      · split <;> omega

/-- Multiples of `2 ^ 64` by a factor below `2 ^ 53` are exactly representable
in binary64: this is the product `1.0 * (size_in_bits - 1) as f64` arising for
the digest `u64::MAX`. -/
theorem roundSig_mul_pow64 {m : ℕ} (hm : m < 2 ^ 53) :
    roundSig (2 ^ 64 * m) = 2 ^ 64 * m := by
  rcases Nat.eq_zero_or_pos m with hm0 | hm0
  · subst hm0
    simp [roundSig]
  · have hn53 : ¬ 2 ^ 64 * m < 2 ^ 53 := by
      have h1 : (2 : ℕ) ^ 64 * 1 ≤ 2 ^ 64 * m := Nat.mul_le_mul_left _ hm0
      have h2 : (2 : ℕ) ^ 53 < 2 ^ 64 * 1 := by norm_num
      omega
    have hn117 : 2 ^ 64 * m < 2 ^ 117 := by
      have h1 : (2 : ℕ) ^ 64 * m < 2 ^ 64 * 2 ^ 53 :=
        mul_lt_mul_of_pos_left hm (pow_pos (by norm_num) _)
      have h2 : (2 : ℕ) ^ 64 * 2 ^ 53 = 2 ^ 117 := by norm_num
      omega
    have hbl : bitLen (2 ^ 64 * m) ≤ 117 := bitLen_le hn117 (by norm_num)
    have hsh : bitLen (2 ^ 64 * m) - 53 ≤ 64 := by omega
    have hdvd : 2 ^ (bitLen (2 ^ 64 * m) - 53) ∣ 2 ^ 64 * m :=
      Dvd.dvd.mul_right (pow_dvd_pow 2 hsh) m
    have hr : 2 ^ 64 * m % 2 ^ (bitLen (2 ^ 64 * m) - 53) = 0 :=
      Nat.mod_eq_zero_of_dvd hdvd
    unfold roundSig
    rw [if_neg hn53]
    rw [if_pos (by rw [hr]; exact pow_pos (by norm_num) _)]
    exact Nat.div_mul_cancel hdvd

/-- For sizes up to `2 ^ 53` every digest below `2 ^ 64` is mapped to a bit
index strictly below `size_in_bits`. -/
theorem bit_index_lt {s d : ℕ} (hs1 : 1 ≤ s) (hs2 : s ≤ 2 ^ 53)
    (hd : d < 2 ^ 64) : bit_index_from_u64 s d < s := by
  have hb : roundSig (s - 1) = s - 1 := roundSig_eq_self (by omega)
  have ha : roundSig d ≤ 2 ^ 64 := roundSig_le_pow hd (by norm_num)
  have hM : roundSig d * roundSig (s - 1) ≤ 2 ^ 64 * (s - 1) := by
    rw [hb]
    exact Nat.mul_le_mul_right _ ha
  have hM117 : roundSig d * roundSig (s - 1) < 2 ^ 117 := by
    have h1 : (2 : ℕ) ^ 64 * (s - 1) < 2 ^ 64 * 2 ^ 53 :=
      mul_lt_mul_of_pos_left (by omega) (pow_pos (by norm_num) _)
    have h2 : (2 : ℕ) ^ 64 * 2 ^ 53 = 2 ^ 117 := by norm_num
    omega
  have hp : roundSig (roundSig d * roundSig (s - 1)) < 2 ^ 64 * s := by
    have h1 := roundSig_lt_add hM117
    have h2 : (2 : ℕ) ^ 64 * (s - 1) + 2 ^ 64 = 2 ^ 64 * s := by
      have : (2 : ℕ) ^ 64 * (s - 1) + 2 ^ 64 = 2 ^ 64 * ((s - 1) + 1) := by ring
      rw [this]
      congr 1
      omega
    omega
  have hdiv : roundSig (roundSig d * roundSig (s - 1)) / 2 ^ 64 < s := by
    rw [Nat.div_lt_iff_lt_mul (Nat.pos_pow_of_pos _ (by norm_num))]
    omega
  calc bit_index_from_u64 s d
      ≤ roundSig (roundSig d * roundSig (s - 1)) / 2 ^ 64 := min_le_left _ _
    _ < s := hdiv

/-- The mask `TWO_TO_THE_SEVENTH >> (i % 8)` is the power of two of the
most-significant-bit-first position `7 - i % 8`. -/
theorem mask_shift {m : ℕ} (hm : m < 8) : 128 >>> m = 2 ^ (7 - m) := by
  interval_cases m <;> rfl

/-- Bridge between the source's `x & mask != 0` test and `Nat.testBit`. -/
theorem and_two_pow_bne (x t : ℕ) : ((x &&& 2 ^ t) != 0) = x.testBit t := by
  rw [Nat.and_two_pow]
  cases hb : x.testBit t
  · simp
  · simp [Nat.pos_iff_ne_zero, pow_ne_zero]

theorem getD_set_self {l : List ℕ} {j v : ℕ} (h : j < l.length) :
    (l.set j v).getD j 0 = v := by
  simp [List.getD_eq_getElem?_getD, List.getElem?_set_self h]

theorem getD_set_ne {l : List ℕ} (j j' v : ℕ) (h : j ≠ j') :
    (l.set j v).getD j' 0 = l.getD j' 0 := by
  simp [List.getD_eq_getElem?_getD, List.getElem?_set_ne h]

theorem getD_replicate (n j : ℕ) : (List.replicate n 0).getD j 0 = 0 := by
  simp [List.getD_eq_getElem?_getD, List.getElem?_replicate]
  split <;> rfl

theorem arrLe_refl (a : List ℕ) : arrLe a a :=
  ⟨rfl, fun _ _ h => h⟩

theorem arrLe_trans {a b c : List ℕ} (h1 : arrLe a b) (h2 : arrLe b c) : arrLe a c :=
  ⟨h1.1.trans h2.1, fun j t ht => h2.2 j t (h1.2 j t ht)⟩

/-- `set_bit` only ORs one extra bit into one byte: the array only grows. -/
theorem set_bit_arrLe {ba ba' : BitArray} {i : ℕ} (h : ba.set_bit i = some ba') :
    ba'.size_in_bits = ba.size_in_bits ∧ arrLe ba.array ba'.array := by
  unfold BitArray.set_bit at h
  split at h
  · rename_i hlt
    cases h
    refine ⟨rfl, ?_, ?_⟩
    · simp
    · intro j
      rcases eq_or_ne (i / 8) j with hj | hj
      · subst hj
        rw [getD_set_self hlt]
        intro t ht
        rw [Nat.testBit_lor, ht]
        rfl
      · rw [getD_set_ne _ _ _ hj]
        exact fun _ h => h
  · cases h

/-- After `set_bit i` succeeds, `get_bit i` reads back `true`. -/
theorem set_bit_get_bit {ba ba' : BitArray} {i : ℕ} (h : ba.set_bit i = some ba') :
    ba'.get_bit i = some true := by
  unfold BitArray.set_bit at h
  split at h
  · rename_i hlt
    cases h
    unfold BitArray.get_bit
    rw [if_pos (by simpa using hlt)]
    have hm : (128 : ℕ) >>> (i % 8) = 2 ^ (7 - i % 8) :=
      mask_shift (Nat.mod_lt _ (by norm_num))
    rw [hm]
    simp only [getD_set_self hlt]
    rw [and_two_pow_bne]
    rw [Nat.testBit_lor, Nat.testBit_two_pow_self]
    simp
  · cases h

/-- A bit reading `true` keeps reading `true` in any dominating array. -/
theorem get_bit_mono {a b : BitArray} {j : ℕ} (hle : arrLe a.array b.array)
    (h : a.get_bit j = some true) : b.get_bit j = some true := by
  unfold BitArray.get_bit at h ⊢
  split at h
  · rename_i hlt
    rw [if_pos (hle.1 ▸ hlt)]
    have hm : (128 : ℕ) >>> (j % 8) = 2 ^ (7 - j % 8) :=
      mask_shift (Nat.mod_lt _ (by norm_num))
    rw [hm] at h ⊢
    rw [and_two_pow_bne] at h ⊢
    simp only [Option.some.injEq] at h ⊢
    exact hle.2 (j / 8) _ h
  · cases h

/-- A successful run of the insert loop never shrinks the bit array and never
changes the recorded size. -/
theorem insertAux_some {α : Type _} {h : ℕ → α → ℕ} {v : α} {L : List ℕ} :
    ∀ {ba ba' : BitArray}, BloomFilter.insertAux h v L ba = some ba' →
      ba'.size_in_bits = ba.size_in_bits ∧ arrLe ba.array ba'.array := by
  induction L with
  | nil =>
    intro ba ba' e
    unfold BloomFilter.insertAux at e
    cases e
    exact ⟨rfl, arrLe_refl _⟩
  | cons i rest ih =>
    intro ba ba' e
    unfold BloomFilter.insertAux at e
    cases hset : ba.set_bit_from_u64 (h i v) with
    | none => rw [hset] at e; cases e
    | some ba1 =>
      rw [hset] at e
      unfold BitArray.set_bit_from_u64 at hset
      have h1 := set_bit_arrLe hset
      have h2 := ih e
      exact ⟨h2.1.trans h1.1, arrLe_trans h1.2 h2.2⟩

/-- After a successful insert loop, the bit of every round of the loop is set. -/
theorem insertAux_sets {α : Type _} {h : ℕ → α → ℕ} {v : α} {L : List ℕ} :
    ∀ {ba ba' : BitArray}, BloomFilter.insertAux h v L ba = some ba' →
      ∀ i ∈ L, ba'.get_bit_from_u64 (h i v) = some true := by
  induction L with
  | nil => intro ba ba' _ i hi; cases hi
  | cons i rest ih =>
    intro ba ba' e j hj
    unfold BloomFilter.insertAux at e
    cases hset : ba.set_bit_from_u64 (h i v) with
    | none => rw [hset] at e; cases e
    | some ba1 =>
      rw [hset] at e
      unfold BitArray.set_bit_from_u64 at hset
      rcases List.mem_cons.mp hj with hj | hj
      · subst hj
        have hsz1 : ba1.size_in_bits = ba.size_in_bits := (set_bit_arrLe hset).1
        have hsz2 : ba'.size_in_bits = ba1.size_in_bits := (insertAux_some e).1
        have hget1 : ba1.get_bit (bit_index_from_u64 ba.size_in_bits (h j v)) = some true :=
          set_bit_get_bit hset
        have hget2 : ba'.get_bit (bit_index_from_u64 ba.size_in_bits (h j v)) = some true :=
          get_bit_mono (insertAux_some e).2 hget1
        unfold BitArray.get_bit_from_u64
        rw [hsz2, hsz1]
        exact hget2
      · exact ih e j hj

/-- The query loop answers `true` when the bit of every round is set. -/
theorem containsAux_of_forall {α : Type _} {h : ℕ → α → ℕ} {v : α} {ba : BitArray}
    {L : List ℕ} (hall : ∀ i ∈ L, ba.get_bit_from_u64 (h i v) = some true) :
    BloomFilter.containsAux h v ba L = some true := by
  induction L with
  | nil => rfl
  | cons i rest ih =>
    unfold BloomFilter.containsAux
    rw [hall i (List.mem_cons_self i rest)]
    exact ih fun j hj => hall j (List.mem_cons_of_mem _ hj)

/-- Conversely, a `true` answer of the query loop means every round's bit is
set (no round may fail or short-circuit). -/
theorem containsAux_forall {α : Type _} {h : ℕ → α → ℕ} {v : α} {ba : BitArray}
    {L : List ℕ} (e : BloomFilter.containsAux h v ba L = some true) :
    ∀ i ∈ L, ba.get_bit_from_u64 (h i v) = some true := by
  induction L with
  | nil => intro i hi; cases hi
  | cons i rest ih =>
    intro j hj
    unfold BloomFilter.containsAux at e
    cases hget : ba.get_bit_from_u64 (h i v) with
    | none => rw [hget] at e; cases e
    | some b =>
      rw [hget] at e
      cases b with
      | false => cases e
      | true =>
        rcases List.mem_cons.mp hj with hj | hj
        · subst hj; exact hget
        · exact ih e j hj

/-- Setting a bit that is already set changes nothing in the byte. -/
theorem lor_self_right (x m : ℕ) : (x ||| m) ||| m = x ||| m := by
  apply Nat.eq_of_testBit_eq
  intro t
  simp [Nat.testBit_lor, Bool.or_assoc]

/-- The query loop short-circuits to `false` as soon as one bit reads `0`. -/
theorem containsAux_cons_false {α : Type _} {h : ℕ → α → ℕ} {v : α} {ba : BitArray}
    {i : ℕ} {L : List ℕ} (hget : ba.get_bit_from_u64 (h i v) = some false) :
    BloomFilter.containsAux h v ba (i :: L) = some false := by
  unfold BloomFilter.containsAux
  rw [hget]

/-- The query loop propagates a panic of its first round. -/
theorem containsAux_cons_none {α : Type _} {h : ℕ → α → ℕ} {v : α} {ba : BitArray}
    {i : ℕ} {L : List ℕ} (hget : ba.get_bit_from_u64 (h i v) = none) :
    BloomFilter.containsAux h v ba (i :: L) = none := by
  unfold BloomFilter.containsAux
  rw [hget]

/-- The insert loop propagates a panic of its first round. -/
theorem insertAux_cons_none {α : Type _} {h : ℕ → α → ℕ} {v : α} {ba : BitArray}
    {i : ℕ} {L : List ℕ} (hset : ba.set_bit_from_u64 (h i v) = none) :
    BloomFilter.insertAux h v (i :: L) ba = none := by
  unfold BloomFilter.insertAux
  rw [hset]


/-- C1, no false negatives: for every hash capability, every filter whose bit
array has at least one bit, and every value `v`, when `insert v` completes
(without panicking) the query `maybe_contains v` on the resulting filter
returns `true`: both loops derive the digest of round `i` the same way and
`insert` sets exactly the bits that `maybe_contains` checks. -/
theorem insert_then_maybe_contains {α : Type _} (h : ℕ → α → ℕ)
    (bf bf' : BloomFilter) (v : α)
    (hsize : 1 ≤ bf.bit_array.size_in_bits)
    (hins : BloomFilter.insert h bf v = some bf') :
    BloomFilter.maybe_contains h bf' v = some true := by
  unfold BloomFilter.insert at hins
  cases e : BloomFilter.insertAux h v (List.range bf.num_hash_functions) bf.bit_array with
  | none => rw [e] at hins; cases hins
  | some ba' =>
    rw [e] at hins
    cases hins
    exact containsAux_of_forall fun i hi => insertAux_sets e i hi

/-- Witness for C1 at a concrete filter: inserting `0` with the constant-zero
digest capability into an 8-bit filter with one hash function yields the byte
`128`, and the query then returns `true`. -/
theorem insert_then_maybe_contains_witness :
    BloomFilter.maybe_contains (fun _ _ => 0) (⟨⟨[128], 8⟩, 1⟩ : BloomFilter)
      (0 : ℕ) = some true :=
  insert_then_maybe_contains (fun _ _ => 0) (BloomFilter.new 8 1) ⟨⟨[128], 8⟩, 1⟩ 0
    (by decide) (by decide)

/-- C3, monotonicity of membership: if `maybe_contains x` answers `true` and
`insert y` then completes, `maybe_contains x` still answers `true` on the new
state; moreover every bit that reads `1` before the insert still reads `1`
after it (bits only transition 0 to 1, never back). -/
theorem maybe_contains_monotone {α : Type _} (h : ℕ → α → ℕ)
    (bf bf' : BloomFilter) (x y : α)
    (hsize : 1 ≤ bf.bit_array.size_in_bits)
    (hq : BloomFilter.maybe_contains h bf x = some true)
    (hins : BloomFilter.insert h bf y = some bf') :
    BloomFilter.maybe_contains h bf' x = some true ∧
      bits_monotone bf.bit_array bf'.bit_array := by
  unfold BloomFilter.insert at hins
  cases e : BloomFilter.insertAux h y (List.range bf.num_hash_functions) bf.bit_array with
  | none => rw [e] at hins; cases hins
  | some ba' =>
    rw [e] at hins
    cases hins
    have hmono := insertAux_some e
    constructor
    · show BloomFilter.containsAux h x ba' (List.range bf.num_hash_functions) = some true
      apply containsAux_of_forall
      intro i hi
      have hbit := containsAux_forall hq i hi
      unfold BitArray.get_bit_from_u64 at hbit ⊢
      rw [hmono.1]
      exact get_bit_mono hmono.2 hbit
    · intro j hj
      exact get_bit_mono hmono.2 hj

/-- Witness for C3: with the capability sending round `i` of value `w` to
`i + w`, the query for `1` stays `true` across an insert of `2`. -/
theorem maybe_contains_monotone_witness :
    BloomFilter.maybe_contains (fun i w => i + w) (⟨⟨[128, 0], 16⟩, 1⟩ : BloomFilter)
      (1 : ℕ) = some true ∧
      bits_monotone (⟨[128, 0], 16⟩ : BitArray) (⟨[128, 0], 16⟩ : BitArray) :=
  maybe_contains_monotone (fun i w => i + w) ⟨⟨[128, 0], 16⟩, 1⟩
    ⟨⟨[128, 0], 16⟩, 1⟩ 1 2 (by decide) (by decide) (by decide)

/-- C8, degenerate zero-hash-function filter: with `num_hash_functions = 0`
both loops run zero rounds, so `maybe_contains` returns `true` unconditionally
and `insert` checks or sets no bits, returning the filter unchanged. -/
theorem zero_hash_functions {α : Type _} (h : ℕ → α → ℕ) (bf : BloomFilter) (v : α)
    (hk : bf.num_hash_functions = 0) :
    BloomFilter.maybe_contains h bf v = some true ∧
      BloomFilter.insert h bf v = some bf := by
  obtain ⟨ba, k⟩ := bf
  simp only at hk
  subst hk
  exact ⟨rfl, rfl⟩

/-- Witness for C8 on a concrete 8-bit filter with zero hash functions. -/
theorem zero_hash_functions_witness :
    BloomFilter.maybe_contains (fun _ _ => 0) (BloomFilter.new 8 0) (5 : ℕ) = some true ∧
      BloomFilter.insert (fun _ _ => 0) (BloomFilter.new 8 0) (5 : ℕ) =
        some (BloomFilter.new 8 0) :=
  zero_hash_functions (fun _ _ => 0) (BloomFilter.new 8 0) 5 rfl

/-- C9, determinism: the embedded operations are functions, so two filters
built from the same parameters and fed the same insertion sequence have
identical byte contents and answer every query identically. -/
theorem insert_run_deterministic {α : Type _} (h : ℕ → α → ℕ) (size k : ℕ)
    (vs : List α) (q : α) (f1 f2 : BloomFilter)
    (h1 : BloomFilter.runInserts h (BloomFilter.new size k) vs = some f1)
    (h2 : BloomFilter.runInserts h (BloomFilter.new size k) vs = some f2) :
    f1.bit_array.array = f2.bit_array.array ∧
      BloomFilter.maybe_contains h f1 q = BloomFilter.maybe_contains h f2 q := by
  rw [h1] at h2
  cases h2
  exact ⟨rfl, rfl⟩

/-- Witness for C9: two identical runs of two insertions into an 8-bit
single-hash filter agree on the bytes and on a query. -/
theorem insert_run_deterministic_witness :
    ([128] : List ℕ) = [128] ∧
      BloomFilter.maybe_contains (fun _ _ => 0) (⟨⟨[128], 8⟩, 1⟩ : BloomFilter) (3 : ℕ) =
        BloomFilter.maybe_contains (fun _ _ => 0) (⟨⟨[128], 8⟩, 1⟩ : BloomFilter) (3 : ℕ) :=
  insert_run_deterministic (fun _ _ => 0) 8 1 [0, 1] 3 ⟨⟨[128], 8⟩, 1⟩ ⟨⟨[128], 8⟩, 1⟩
    (by decide) (by decide)

/-- C2, refuted as stated: for capacity `2 ^ 53 + 4` the digest `u64::MAX`
is mapped to bit index `2 ^ 53 + 4` — the binary64 rounding of
`capacity_bits - 1 = 2 ^ 53 + 3` rounds up to `2 ^ 53 + 4` — while the spec's
exact formula `floor((digest / u64::MAX) * (capacity_bits - 1))` gives
`2 ^ 53 + 3 = capacity_bits - 1`; so neither the exact-floor description nor
the exact endpoint property `u64::MAX maps to capacity_bits - 1` holds. -/
theorem bit_index_endpoint_cex :
    bit_index_from_u64 (2 ^ 53 + 4) (2 ^ 64 - 1) = 2 ^ 53 + 4 ∧
      spec_floor_index (2 ^ 53 + 4) (2 ^ 64 - 1) = 2 ^ 53 + 3 ∧
      bit_index_from_u64 (2 ^ 53 + 4) (2 ^ 64 - 1) ≠
        spec_floor_index (2 ^ 53 + 4) (2 ^ 64 - 1) := by
  refine ⟨by decide, by decide, by decide⟩

/-- C2 as amended: for every capacity between `1` and `2 ^ 53` — the range in
which `capacity_bits - 1` is exactly representable in binary64 — digest `0`
maps to bit index `0` and digest `u64::MAX` maps to bit index
`capacity_bits - 1`, exactly. -/
theorem bit_index_endpoints (s : ℕ) (hs1 : 1 ≤ s) (hs2 : s ≤ 2 ^ 53) :
    bit_index_from_u64 s 0 = 0 ∧ bit_index_from_u64 s (2 ^ 64 - 1) = s - 1 := by
  constructor
  · unfold bit_index_from_u64
    have h0 : roundSig 0 = 0 := roundSig_eq_self (by norm_num)
    rw [h0, Nat.zero_mul, h0, Nat.zero_div]
    simp
  · have hb : roundSig (s - 1) = s - 1 := roundSig_eq_self (by omega)
    have ha : roundSig (2 ^ 64 - 1) = 2 ^ 64 := by decide
    have hcmp : (2 : ℕ) ^ 53 ≤ 2 ^ 64 := by norm_num
    unfold bit_index_from_u64
    rw [ha, hb, roundSig_mul_pow64 (show s - 1 < 2 ^ 53 by omega)]
    rw [Nat.mul_div_cancel_left _ (pow_pos (by norm_num) 64)]
    exact min_eq_left (by omega)

/-- Witness for C2's amended endpoint property at capacity 12. -/
theorem bit_index_endpoints_witness :
    bit_index_from_u64 12 0 = 0 ∧ bit_index_from_u64 12 (2 ^ 64 - 1) = 11 :=
  bit_index_endpoints 12 (by norm_num) (by norm_num)

/-- C6, refuted: at `size_in_bits = 2 ^ 58 + 49` the digest `u64::MAX` is
mapped to bit index `2 ^ 58 + 64` — binary64 rounding of `size_in_bits - 1`
rounds up by 16 — which is not strictly less than `size_in_bits`; its byte
index `2 ^ 55 + 8` falls outside the `2 ^ 55 + 7` allocated bytes, so
`set_bit_from_u64` (and hence `insert`) panics, contradicting the source
comment "The final value is guaranteed to be less than the array size in
bits" and the claim that `insert` never panics on a valid filter. -/
theorem bit_index_overflow :
    bit_index_from_u64 (2 ^ 58 + 49) (2 ^ 64 - 1) = 2 ^ 58 + 64 ∧
      2 ^ 58 + 49 ≤ 2 ^ 58 + 64 ∧
      (BitArray.new (2 ^ 58 + 49)).set_bit_from_u64 (2 ^ 64 - 1) = none ∧
      BloomFilter.insert (fun _ _ => 2 ^ 64 - 1) (BloomFilter.new (2 ^ 58 + 49) 1)
        (0 : ℕ) = none := by
  have hidx : bit_index_from_u64 (2 ^ 58 + 49) (2 ^ 64 - 1) = 2 ^ 58 + 64 := by decide
  have hlen : ¬ (2 ^ 58 + 64) / 8 < (BitArray.new (2 ^ 58 + 49)).array.length := by
    show ¬ (2 ^ 58 + 64) / 8 < (List.replicate (size_in_bytes (2 ^ 58 + 49)) 0).length
    rw [List.length_replicate, size_in_bytes_eq]
    norm_num
  have hset : (BitArray.new (2 ^ 58 + 49)).set_bit_from_u64 (2 ^ 64 - 1) = none := by
    show (BitArray.new (2 ^ 58 + 49)).set_bit
      (bit_index_from_u64 (2 ^ 58 + 49) (2 ^ 64 - 1)) = none
    rw [hidx]
    unfold BitArray.set_bit
    rw [if_neg hlen]
  refine ⟨hidx, by norm_num, hset, ?_⟩
  show (BloomFilter.insertAux (fun _ _ => 2 ^ 64 - 1) (0 : ℕ) (List.range 1)
      (BitArray.new (2 ^ 58 + 49))).map
        (fun ba => (⟨ba, 1⟩ : BloomFilter)) = none
  rw [show List.range 1 = [0] from rfl]
  have hnone : BloomFilter.insertAux (fun _ _ => 2 ^ 64 - 1) (0 : ℕ) [0]
      (BitArray.new (2 ^ 58 + 49)) = none :=
    @insertAux_cons_none ℕ (fun _ _ => 2 ^ 64 - 1) 0 (BitArray.new (2 ^ 58 + 49)) 0 [] hset
  rw [hnone]
  rfl

/-- C10, refuted as stated: on an empty filter of `2 ^ 58 + 49` bits with one
hash function, a value whose round-0 digest is `u64::MAX` makes
`maybe_contains` panic (the mapped bit index lands outside the allocated
bytes), instead of returning `false`. -/
theorem empty_filter_query_panics :
    BloomFilter.maybe_contains (fun _ _ => 2 ^ 64 - 1)
      (BloomFilter.new (2 ^ 58 + 49) 1) (0 : ℕ) = none := by
  have hidx : bit_index_from_u64 (2 ^ 58 + 49) (2 ^ 64 - 1) = 2 ^ 58 + 64 := by decide
  have hlen : ¬ (2 ^ 58 + 64) / 8 < (BitArray.new (2 ^ 58 + 49)).array.length := by
    show ¬ (2 ^ 58 + 64) / 8 < (List.replicate (size_in_bytes (2 ^ 58 + 49)) 0).length
    rw [List.length_replicate, size_in_bytes_eq]
    norm_num
  have hget : (BitArray.new (2 ^ 58 + 49)).get_bit_from_u64 (2 ^ 64 - 1) = none := by
    show (BitArray.new (2 ^ 58 + 49)).get_bit
      (bit_index_from_u64 (2 ^ 58 + 49) (2 ^ 64 - 1)) = none
    rw [hidx]
    unfold BitArray.get_bit
    rw [if_neg hlen]
  show BloomFilter.containsAux (fun _ _ => 2 ^ 64 - 1) (0 : ℕ)
    (BitArray.new (2 ^ 58 + 49)) (List.range 1) = none
  rw [show List.range 1 = [0] from rfl]
  exact containsAux_cons_none hget

/-- C10 as amended: a freshly constructed filter with at least one bit, at
most `2 ^ 53` bits — the range in which every digest maps to an in-bounds
bit — and at least one hash round answers `false` for every value. -/
theorem empty_filter_contains_nothing {α : Type _} (h : ℕ → α → ℕ) (v : α)
    (s k : ℕ) (hs1 : 1 ≤ s) (hs2 : s ≤ 2 ^ 53) (hk : 1 ≤ k)
    (hd : h 0 v < 2 ^ 64) :
    BloomFilter.maybe_contains h (BloomFilter.new s k) v = some false := by
  obtain ⟨k', rfl⟩ : ∃ k', k = k' + 1 := ⟨k - 1, by omega⟩
  have hidx : bit_index_from_u64 s (h 0 v) < s := bit_index_lt hs1 hs2 hd
  have hget : (BitArray.new s).get_bit_from_u64 (h 0 v) = some false := by
    show (BitArray.new s).get_bit (bit_index_from_u64 s (h 0 v)) = some false
    have hlen : bit_index_from_u64 s (h 0 v) / 8 < (BitArray.new s).array.length := by
      show bit_index_from_u64 s (h 0 v) / 8 < (List.replicate (size_in_bytes s) 0).length
      rw [List.length_replicate, size_in_bytes_eq]
      omega
    unfold BitArray.get_bit
    rw [if_pos hlen]
    show some (((List.replicate (size_in_bytes s) 0).getD
      (bit_index_from_u64 s (h 0 v) / 8) 0 &&&
        (128 >>> (bit_index_from_u64 s (h 0 v) % 8))) != 0) = some false
    rw [getD_replicate]
    simp
  show BloomFilter.containsAux h v (BitArray.new s) (List.range (k' + 1)) = some false
  rw [List.range_succ_eq_map]
  exact containsAux_cons_false hget

/-- Witness for C10's amended statement on an 8-bit empty filter. -/
theorem empty_filter_contains_nothing_witness :
    BloomFilter.maybe_contains (fun _ _ => 0) (BloomFilter.new 8 1) (7 : ℕ) =
      some false :=
  empty_filter_contains_nothing (fun _ _ => 0) 7 8 1 (by norm_num) (by norm_num)
    (by norm_num) (by norm_num)

/-- C5, byte-packing and bit numbering: for an index inside the allocated
bytes, `set_bit i` ORs `0x80 >> (i % 8)` — that is `2 ^ (7 - i % 8)`, bit
position `7 - i % 8` counting from the least-significant bit — into byte
`i / 8`; doing it twice is idempotent; `get_bit` reads that bit back as
`true` after the set, and in general answers whether that same bit is 1;
on a fresh 8-bit array, setting bit 0 makes byte 0 equal 128, and then
setting bit 1 makes byte 0 equal 192. -/
theorem set_get_bit_packing (ba : BitArray) (i : ℕ) (h : i < 8 * ba.array.length) :
    BitArray.set_bit ba i =
      some ⟨ba.array.set (i / 8) ((ba.array.getD (i / 8) 0) ||| 2 ^ (7 - i % 8)),
        ba.size_in_bits⟩ ∧
    BitArray.set_bit
        ⟨ba.array.set (i / 8) ((ba.array.getD (i / 8) 0) ||| 2 ^ (7 - i % 8)),
          ba.size_in_bits⟩ i =
      some ⟨ba.array.set (i / 8) ((ba.array.getD (i / 8) 0) ||| 2 ^ (7 - i % 8)),
        ba.size_in_bits⟩ ∧
    BitArray.get_bit
        ⟨ba.array.set (i / 8) ((ba.array.getD (i / 8) 0) ||| 2 ^ (7 - i % 8)),
          ba.size_in_bits⟩ i = some true ∧
    BitArray.get_bit ba i =
      some (((ba.array.getD (i / 8) 0) &&& 2 ^ (7 - i % 8)) != 0) ∧
    (BitArray.new 8).set_bit 0 = some ⟨[128], 8⟩ ∧
    ((BitArray.new 8).set_bit 0).bind (fun b => b.set_bit 1) = some ⟨[192], 8⟩ := by
  have hdiv : i / 8 < ba.array.length := by omega
  have hmask : (128 : ℕ) >>> (i % 8) = 2 ^ (7 - i % 8) :=
    mask_shift (Nat.mod_lt _ (by norm_num))
  have h1 : BitArray.set_bit ba i =
      some ⟨ba.array.set (i / 8) ((ba.array.getD (i / 8) 0) ||| 2 ^ (7 - i % 8)),
        ba.size_in_bits⟩ := by
    unfold BitArray.set_bit
    rw [if_pos hdiv, hmask]
  refine ⟨h1, ?_, set_bit_get_bit h1, ?_, by decide, by decide⟩
  · unfold BitArray.set_bit
    rw [if_pos (by simpa using hdiv), hmask]
    rw [getD_set_self hdiv, lor_self_right, List.set_set]
  · unfold BitArray.get_bit
    rw [if_pos hdiv, hmask]

/-- Witness for C5 on a two-byte array at bit index 3 (mask `2 ^ 4 = 16`). -/
theorem set_get_bit_packing_witness :
    BitArray.set_bit ⟨[0, 0], 16⟩ 3 = some ⟨[16, 0], 16⟩ ∧
    BitArray.set_bit ⟨[16, 0], 16⟩ 3 = some ⟨[16, 0], 16⟩ ∧
    BitArray.get_bit ⟨[16, 0], 16⟩ 3 = some true ∧
    BitArray.get_bit ⟨[0, 0], 16⟩ 3 = some false ∧
    (BitArray.new 8).set_bit 0 = some ⟨[128], 8⟩ ∧
    ((BitArray.new 8).set_bit 0).bind (fun b => b.set_bit 1) = some ⟨[192], 8⟩ :=
  set_get_bit_packing ⟨[0, 0], 16⟩ 3 (by decide)

/-- C4, refuted as stated: with the `f32` product `max_insertions * multiplier`
evaluating to `3 / 2` (so that its ceiling is `2`), the constructed filter has
`size_in_bits = 2`, which is the bare ceiling and is not rounded up to the
next multiple of 8 (that would be 8): the constructor performs no byte
alignment of `size_in_bits`. -/
theorem size_not_byte_aligned_cex :
    (BloomFilter.with_false_positive_bound (3 / 2 : ℚ) 1).map
        (fun bf => bf.bit_array.size_in_bits) = some 2 ∧
      (2 + 7) / 8 * 8 = 8 ∧ (2 : ℕ) ≠ 8 := by
  have hceil : (⌈(3 / 2 : ℚ)⌉ : ℤ) = 2 := by
    rw [Int.ceil_eq_iff] <;> norm_num
  refine ⟨?_, by norm_num, by norm_num⟩
  unfold BloomFilter.with_false_positive_bound
  rw [hceil, if_neg (by norm_num)]
  show some (min ((2 : ℤ)).toNat (2 ^ 64 - 1)) = some 2
  norm_num
  rfl

/-- C4 as amended: whenever the ceilings fit below `usize::MAX` (so neither
the panic nor the saturating casts trigger), the constructed filter has
`num_hash_functions = ⌈hashF⌉` and `size_in_bits = ⌈sizeF⌉` — the bare
ceiling of the `f32`-computed `max_insertions * bits_per_element`, with no
rounding of `size_in_bits` up to a multiple of 8 — while the byte allocation
of the underlying `BitArray` is `ceil(size_in_bits / 8)` bytes. -/
theorem with_false_positive_bound_params (sizeF hashF : ℚ)
    (hs : ⌈sizeF⌉ ≤ 2 ^ 64 - 1) (hh : ⌈hashF⌉ ≤ 2 ^ 64 - 1) :
    (BloomFilter.with_false_positive_bound sizeF hashF).map
        (fun bf => bf.bit_array.size_in_bits) = some ⌈sizeF⌉.toNat ∧
      (BloomFilter.with_false_positive_bound sizeF hashF).map
        (fun bf => bf.num_hash_functions) = some ⌈hashF⌉.toNat ∧
      (BloomFilter.with_false_positive_bound sizeF hashF).map
        (fun bf => bf.bit_array.array.length) = some ((⌈sizeF⌉.toNat + 7) / 8) := by
  have hcond : ¬ (2 ^ 64 < ⌈sizeF⌉) := by
    have hlt : (2 : ℤ) ^ 64 - 1 < 2 ^ 64 := by norm_num
    omega
  have hmin1 : min ⌈sizeF⌉.toNat (2 ^ 64 - 1) = ⌈sizeF⌉.toNat :=
    min_eq_left (by omega)
  have hmin2 : min ⌈hashF⌉.toNat (2 ^ 64 - 1) = ⌈hashF⌉.toNat :=
    min_eq_left (by omega)
  unfold BloomFilter.with_false_positive_bound
  rw [if_neg hcond, hmin1, hmin2]
  refine ⟨rfl, rfl, ?_⟩
  show some ((List.replicate (size_in_bytes ⌈sizeF⌉.toNat) 0).length) =
    some ((⌈sizeF⌉.toNat + 7) / 8)
  rw [List.length_replicate, size_in_bytes_eq]

/-- Witness for C4's amended statement at `sizeF = 3 / 2`, `hashF = 7`. -/
theorem with_false_positive_bound_params_witness :
    (BloomFilter.with_false_positive_bound (3 / 2 : ℚ) 7).map
        (fun bf => bf.bit_array.size_in_bits) = some ⌈(3 / 2 : ℚ)⌉.toNat ∧
      (BloomFilter.with_false_positive_bound (3 / 2 : ℚ) 7).map
        (fun bf => bf.num_hash_functions) = some ⌈(7 : ℚ)⌉.toNat ∧
      (BloomFilter.with_false_positive_bound (3 / 2 : ℚ) 7).map
        (fun bf => bf.bit_array.array.length) = some ((⌈(3 / 2 : ℚ)⌉.toNat + 7) / 8) :=
  with_false_positive_bound_params (3 / 2) 7
    (by rw [show (⌈(3 / 2 : ℚ)⌉ : ℤ) = 2 by rw [Int.ceil_eq_iff] <;> norm_num]; norm_num)
    (by rw [show (⌈(7 : ℚ)⌉ : ℤ) = 7 by rw [Int.ceil_eq_iff] <;> norm_num]; norm_num)

/-- C7, refuted as stated: the overflow check compares the computed `f32`
size against `usize::MAX as f32`, which rounds up to `2 ^ 64`; a computed
size of exactly `2 ^ 64` therefore exceeds `usize::MAX = 2 ^ 64 - 1` — the
claim demands a panic — yet the code does not panic and construction
succeeds (the final cast saturates). -/
theorem overflow_check_gap_cex :
    (2 ^ 64 - 1 : ℤ) < ⌈(2 ^ 64 : ℚ)⌉ ∧
      (BloomFilter.with_false_positive_bound (2 ^ 64 : ℚ) 1).isSome = true := by
  have hceil : ⌈(2 ^ 64 : ℚ)⌉ = 2 ^ 64 := by
    rw [Int.ceil_eq_iff] <;> push_cast <;> norm_num
  constructor
  · rw [hceil]
    norm_num
  · unfold BloomFilter.with_false_positive_bound
    rw [if_neg (by rw [hceil]; omega)]
    rfl

/-- C7 as amended: `with_false_positive_bound` panics exactly when the
computed (ceiled) `f32` size exceeds `usize::MAX as f32 = 2 ^ 64`; otherwise
construction succeeds and no other error is raised. -/
theorem with_false_positive_bound_panics_iff (sizeF hashF : ℚ) :
    BloomFilter.with_false_positive_bound sizeF hashF = none ↔
      2 ^ 64 < ⌈sizeF⌉ := by
  unfold BloomFilter.with_false_positive_bound
  split
  · rename_i hc
    exact iff_of_true rfl hc
  · rename_i hc
    constructor
    · intro hcontra
      cases hcontra
    · intro hcc
      exact absurd hcc hc
